import Mathlib

/-!
# Verification of the molscreen similarity / diversity-selection core

Shallow embedding of `src/molscreen/similarity.py` (functions
`tanimoto_similarity`, `rank_by_similarity`, `find_diverse_subset`) and of
the parts of `src/molscreen/properties.py` they use (`MoleculeError`,
`smiles_to_mol`).

The external chemistry library (RDKit) is modelled as a caller-supplied
parameter `parse : String → Option Fp` combining `smiles_to_mol` with
`GetMorganFingerprintAsBitVect`: `none` means the SMILES fails to parse and
`smiles_to_mol` raises `MoleculeError`; fingerprint generation itself never
fails on a parsed molecule.  A fingerprint is a bit vector, modelled as
`List Bool`.  `DataStructs.TanimotoSimilarity` is modelled over ℚ from its
definition |A ∩ B| / |A ∪ B|, with RDKit's convention that two bit vectors
with empty union have similarity 0.0.
-/

/-- A Morgan fingerprint: fixed-width bit vector (RDKit `ExplicitBitVect`). -/
abbrev Fp := List Bool

/-- `MoleculeError` from `molscreen/properties.py`: raised by `smiles_to_mol`
as `MoleculeError(f"Invalid SMILES: ...")`; we keep the offending string. -/
inductive MoleculeError where
  | invalid : String → MoleculeError
deriving DecidableEq, Repr

/-- Number of bit positions set in both vectors (|A ∩ B|). -/
def interCount (a b : Fp) : Nat :=
  (a.zip b).countP (fun p => p.1 && p.2)

/-- Number of bit positions set in either vector (|A ∪ B|). -/
def unionCount (a b : Fp) : Nat :=
  (a.zip b).countP (fun p => p.1 || p.2)

/-- Model of RDKit's `DataStructs.TanimotoSimilarity` on two equal-width bit
vectors: |A ∩ B| / |A ∪ B|, and 0.0 when neither vector has a set bit
(RDKit returns 0.0 on an empty union rather than dividing by zero).
Written with `mkRat`; `tanimoto_eq_div` below shows it is exactly the
field-division formula. -/
def tanimoto (a b : Fp) : ℚ :=
  if unionCount a b = 0 then 0 else mkRat (interCount a b) (unionCount a b)

/-- `tanimoto` computes |A ∩ B| / |A ∪ B| (with ℚ's `x / 0 = 0` convention
agreeing with the 0.0-on-empty-union branch). -/
theorem tanimoto_eq_div (a b : Fp) :
    tanimoto a b = (interCount a b : ℚ) / (unionCount a b : ℚ) := by
  unfold tanimoto
  rcases Nat.eq_zero_or_pos (unionCount a b) with h | h
  · simp [h]
  · rw [if_neg (Nat.pos_iff_ne_zero.mp h), Rat.mkRat_eq_div]
    norm_num

/-- `tanimoto_similarity(smiles1, smiles2)` from `similarity.py` lines 46-75:
fingerprint both inputs (raising `MoleculeError` on a parse failure) and
return their Tanimoto similarity. -/
def tanimoto_similarity (parse : String → Option Fp) (smiles1 smiles2 : String) :
    Except MoleculeError ℚ :=
  match parse smiles1 with
  | none => .error (.invalid smiles1)
  | some fp1 =>
    match parse smiles2 with
    | none => .error (.invalid smiles2)
    | some fp2 => .ok (tanimoto fp1 fp2)

/-- The scored-candidate list built by `rank_by_similarity`'s for-loop
(lines 117-126): each candidate that parses contributes
`(candidate, TanimotoSimilarity(query_fp, candidate_fp))`, in input order;
candidates that raise `MoleculeError` are skipped. -/
def scoreCands (parse : String → Option Fp) (query_fp : Fp)
    (candidates : List String) : List (String × ℚ) :=
  candidates.filterMap fun c => (parse c).map fun fp => (c, tanimoto query_fp fp)

/-- One step of the stable descending sort: insert `x` before the first
element whose score is ≤ `x`'s score.  Elements passed over strictly exceed
`x`'s score, so equal-score elements already present stay in front of `x`. -/
def insertDesc (x : String × ℚ) : List (String × ℚ) → List (String × ℚ)
  | [] => [x]
  | y :: ys => if y.2 ≤ x.2 then x :: y :: ys else y :: insertDesc x ys

/-- Model of Python's `list.sort(key=lambda x: x[1], reverse=True)`
(line 129): the stable descending sort by score.  Python's sort is stable
and sorts descending under `reverse=True`; those two properties determine
the output uniquely, and insertion sort with `insertDesc` realizes them. -/
def sortDesc : List (String × ℚ) → List (String × ℚ)
  | [] => []
  | x :: xs => insertDesc x (sortDesc xs)

/-- `rank_by_similarity(query_smiles, candidates, top_k)` from
`similarity.py` lines 78-130.  Mirrors the source order: the empty-candidates
early return comes BEFORE the query is fingerprinted. -/
def rank_by_similarity (parse : String → Option Fp) (query_smiles : String)
    (candidates : List String) (top_k : Nat) :
    Except MoleculeError (List (String × ℚ)) :=
  if candidates = [] then .ok []
  else
    match parse query_smiles with
    | none => .error (.invalid query_smiles)
    | some query_fp =>
      let similarities := scoreCands parse query_fp candidates
      .ok ((sortDesc similarities).take top_k)

/-- The validation loop of `find_diverse_subset`'s fast path (lines 171-172):
`for smiles in smiles_list: smiles_to_mol(smiles)` — raises at the first
unparseable element. -/
def validateAll (parse : String → Option Fp) : List String → Except MoleculeError Unit
  | [] => .ok ()
  | s :: rest =>
    match parse s with
    | none => .error (.invalid s)
    | some _ => validateAll parse rest

/-- `min(TanimotoSimilarity(fp, sel) for sel in selected)` (lines 204-210).
Python's `min` raises on an empty generator; in the algorithm `selected` is
never empty (it is seeded before the loop), so the `[]` case is unreachable
and given a harmless default. -/
def minSimToSelected (fp : Fp) : List (String × Fp) → ℚ
  | [] => 1
  | s :: rest => rest.foldl (fun acc p => min acc (tanimoto fp p.2)) (tanimoto fp s.2)

/-- The inner scan of the selection loop (lines 199-215): fold over the
remaining candidates with their positions, tracking
`(max_min_similarity, best_idx_in_remaining)` starting from `(-1, -1)` and
replacing the pair exactly when the candidate's minimum similarity to the
selected set is strictly greater than the tracked value. -/
def bestRemaining (selected : List (String × Fp)) :
    List (String × Fp) → Nat → ℚ × Int → ℚ × Int
  | [], _, st => st
  | r :: rs, i, (mm, bi) =>
    let m := minSimToSelected r.2 selected
    if mm < m then bestRemaining selected rs (i + 1) (m, (i : Int))
    else bestRemaining selected rs (i + 1) (mm, bi)

/-- Python's `list.pop(i)`: the element at position `i` and the list without
it, or `none` when `i` is out of range. -/
def popAt {α : Type} : List α → Nat → Option (α × List α)
  | [], _ => none
  | x :: xs, 0 => some (x, xs)
  | x :: xs, j + 1 => (popAt xs j).map fun p => (p.1, x :: p.2)

/-- The `while` loop of `find_diverse_subset` (lines 198-225), run on
(smiles, fingerprint) pairs instead of the source's parallel index arrays —
a faithful correspondence since every test and update depends only on the
fingerprint values and list positions.  Each iteration that does not exit
removes exactly one element from `remaining`, so the loop runs at most
`remaining.length` times; `fuel`, always instantiated to `remaining.length`,
makes that bound structural.  The two `selected`-returning inner fallbacks
are unreachable: the scan always yields a non-negative index in range
because Tanimoto similarities are ≥ 0 > -1 (in that state Python would spin
forever, as the loop body would change nothing). -/
def maxminLoop (n : Nat) (threshold : ℚ) :
    Nat → List (String × Fp) → List (String × Fp) → List (String × Fp)
  | 0, selected, _ => selected
  | fuel + 1, selected, remaining =>
    if selected.length < n ∧ remaining ≠ [] then
      let st := bestRemaining selected remaining 0 (-1, -1)
      if threshold ≤ st.1 then selected
      else if (0 : Int) ≤ st.2 then
        match popAt remaining st.2.toNat with
        | none => selected
        | some (x, rest) => maxminLoop n threshold fuel (selected ++ [x]) rest
      else selected
    else selected

/-- `find_diverse_subset(smiles_list, n, threshold)` from `similarity.py`
lines 133-228: empty input → `[]`; input of length ≤ n → validate every
element (fatal on failure) and return the input; otherwise fingerprint
leniently, seed with the first valid element, run the MaxMin loop, and
return the selected SMILES in selection order. -/
def find_diverse_subset (parse : String → Option Fp) (smiles_list : List String)
    (n : Nat) (threshold : ℚ) : Except MoleculeError (List String) :=
  if smiles_list = [] then .ok []
  else if smiles_list.length ≤ n then
    match validateAll parse smiles_list with
    | .error e => .error e
    | .ok _ => .ok smiles_list
  else
    let stamped := smiles_list.filterMap fun s => (parse s).map fun fp => (s, fp)
    match stamped with
    | [] => .ok []
    | seed :: rest =>
      .ok ((maxminLoop n threshold rest.length [seed] rest).map Prod.fst)

-- Concrete parse environments used to evaluate the functions at
-- specific inputs.

/-- A three-molecule universe with width-4 fingerprints:
sim(a,b) = 2/3 (close), sim(a,c) = 0 and sim(b,c) = 0 (diverse). -/
def parseABC (s : String) : Option Fp :=
  if s = "a" then some [true, true, false, false]
  else if s = "b" then some [true, true, true, false]
  else if s = "c" then some [false, false, false, true]
  else none

/-- A parse environment in which no string is a valid molecule. -/
def parseNone : String → Option Fp := fun _ => none

deriving instance DecidableEq for Except

-- Lemmas about the stable descending sort.

theorem insertDesc_length (x : String × ℚ) (l : List (String × ℚ)) :
    (insertDesc x l).length = l.length + 1 := by
  induction l with
  | nil => rfl
  | cons y ys ih =>
    rw [insertDesc]
    by_cases h : y.2 ≤ x.2
    · rw [if_pos h]; rfl
    · rw [if_neg h]; simp [ih]

theorem sortDesc_length (l : List (String × ℚ)) : (sortDesc l).length = l.length := by
  induction l with
  | nil => rfl
  | cons x xs ih => rw [sortDesc, insertDesc_length, ih]; rfl

theorem mem_insertDesc (x : String × ℚ) (l : List (String × ℚ)) :
    ∀ y ∈ insertDesc x l, y = x ∨ y ∈ l := by
  induction l with
  | nil => intro y hy; simpa [insertDesc] using hy
  | cons z zs ih =>
    intro y hy
    rw [insertDesc] at hy
    by_cases hz : z.2 ≤ x.2
    · rw [if_pos hz] at hy
      rcases List.mem_cons.mp hy with h | h
      · exact Or.inl h
      · exact Or.inr h
    · rw [if_neg hz] at hy
      rcases List.mem_cons.mp hy with h | h
      · exact Or.inr (by simp [h])
      · rcases ih y h with h1 | h1
        · exact Or.inl h1
        · exact Or.inr (List.mem_cons_of_mem _ h1)

theorem insertDesc_pairwise {x : String × ℚ} {l : List (String × ℚ)}
    (h : l.Pairwise (fun a b => b.2 ≤ a.2)) :
    (insertDesc x l).Pairwise (fun a b => b.2 ≤ a.2) := by
  induction l with
  | nil => simp [insertDesc]
  | cons y ys ih =>
    rw [insertDesc]
    rcases List.pairwise_cons.mp h with ⟨hy, hys⟩
    by_cases hc : y.2 ≤ x.2
    · rw [if_pos hc]
      refine List.pairwise_cons.mpr ⟨?_, h⟩
      intro z hz
      rcases List.mem_cons.mp hz with h1 | h1
      · rw [h1]; exact hc
      · exact le_trans (hy z h1) hc
    · rw [if_neg hc]
      refine List.pairwise_cons.mpr ⟨?_, ih hys⟩
      intro z hz
      rcases mem_insertDesc x ys z hz with h1 | h1
      · rw [h1]; exact le_of_not_le hc
      · exact hy z h1

theorem sortDesc_pairwise (l : List (String × ℚ)) :
    (sortDesc l).Pairwise (fun a b => b.2 ≤ a.2) := by
  induction l with
  | nil => simp [sortDesc]
  | cons x xs ih => exact insertDesc_pairwise ih

theorem insertDesc_filter_pos {x : String × ℚ} {v : ℚ} (hx : x.2 = v)
    (l : List (String × ℚ)) :
    (insertDesc x l).filter (fun p => p.2 = v) =
      x :: l.filter (fun p => p.2 = v) := by
  induction l with
  | nil => simp [insertDesc, List.filter, hx]
  | cons y ys ih =>
    rw [insertDesc]
    by_cases hc : y.2 ≤ x.2
    · rw [if_pos hc, List.filter_cons_of_pos (by simp [hx])]
    · rw [if_neg hc]
      have hy : ¬ (y.2 = v) := by
        intro hv; rw [← hx] at hv; exact hc (le_of_eq hv)
      rw [List.filter_cons_of_neg (by simp [hy]),
        List.filter_cons_of_neg (by simp [hy]), ih]

theorem insertDesc_filter_neg {x : String × ℚ} {v : ℚ} (hx : ¬ (x.2 = v))
    (l : List (String × ℚ)) :
    (insertDesc x l).filter (fun p => p.2 = v) = l.filter (fun p => p.2 = v) := by
  induction l with
  | nil => simp [insertDesc, List.filter, hx]
  | cons y ys ih =>
    rw [insertDesc]
    by_cases hc : y.2 ≤ x.2
    · rw [if_pos hc, List.filter_cons_of_neg (by simp [hx])]
    · rw [if_neg hc]
      by_cases hy : y.2 = v
      · rw [List.filter_cons_of_pos (by simp [hy]),
          List.filter_cons_of_pos (by simp [hy]), ih]
      · rw [List.filter_cons_of_neg (by simp [hy]),
          List.filter_cons_of_neg (by simp [hy]), ih]

theorem sortDesc_filter (l : List (String × ℚ)) (v : ℚ) :
    (sortDesc l).filter (fun p => p.2 = v) = l.filter (fun p => p.2 = v) := by
  induction l with
  | nil => rfl
  | cons x xs ih =>
    rw [sortDesc]
    by_cases hx : x.2 = v
    · rw [insertDesc_filter_pos hx, ih, List.filter_cons, if_pos (by simp [hx])]
    · rw [insertDesc_filter_neg hx, ih, List.filter_cons, if_neg (by simp [hx])]

theorem scoreCands_length (parse : String → Option Fp) (query_fp : Fp)
    (candidates : List String) :
    (scoreCands parse query_fp candidates).length =
      candidates.countP (fun c => (parse c).isSome) := by
  induction candidates with
  | nil => rfl
  | cons c cs ih =>
    rw [scoreCands, List.filterMap_cons]
    cases hc : parse c with
    | none => simpa [List.countP_cons, hc, scoreCands] using ih
    | some fp => simpa [List.countP_cons, hc, scoreCands] using ih

-- Lemmas about the fast-path validation loop.

theorem validateAll_ok (parse : String → Option Fp) (l : List String)
    (h : ∀ s ∈ l, (parse s).isSome) : validateAll parse l = .ok () := by
  induction l with
  | nil => rfl
  | cons s rest ih =>
    rw [validateAll]
    cases hs : parse s with
    | none => exact absurd (h s (by simp)) (by simp [hs])
    | some fp => exact ih (fun x hx => h x (List.mem_cons_of_mem _ hx))

theorem validateAll_error (parse : String → Option Fp) (l : List String)
    (h : ∃ s ∈ l, parse s = none) : ∃ e, validateAll parse l = .error e := by
  induction l with
  | nil => simp at h
  | cons s rest ih =>
    rw [validateAll]
    cases hs : parse s with
    | none => exact ⟨.invalid s, rfl⟩
    | some fp =>
      rcases h with ⟨x, hx, hxp⟩
      rcases List.mem_cons.mp hx with h1 | h1
      · rw [h1] at hxp; rw [hxp] at hs; cases hs
      · exact ih ⟨x, h1, hxp⟩

-- Lemmas about the MaxMin selection loop.

theorem popAt_length {α : Type} :
    ∀ (l : List α) (j : Nat) (x : α) (ys : List α),
      popAt l j = some (x, ys) → ys.length + 1 = l.length := by
  intro l
  induction l with
  | nil => intro j x ys h; cases h
  | cons a as ih =>
    intro j x ys h
    cases j with
    | zero =>
      rw [popAt] at h
      cases h
      rfl
    | succ j =>
      rw [popAt] at h
      cases hp : popAt as j with
      | none => rw [hp] at h; cases h
      | some p =>
        rw [hp] at h
        simp only [Option.map_some'] at h
        cases h
        have := ih j p.1 p.2 (by rw [hp])
        simp only [List.length_cons]
        omega

theorem le_maxminLoop_length (n : Nat) (t : ℚ) :
    ∀ (fuel : Nat) (sel rem : List (String × Fp)),
      sel.length ≤ (maxminLoop n t fuel sel rem).length := by
  intro fuel
  induction fuel with
  | zero => intro sel rem; exact le_refl _
  | succ fuel ih =>
    intro sel rem
    simp only [maxminLoop]
    split
    · split
      · exact le_refl _
      · split
        · split
          · exact le_refl _
          · rename_i x rest heq
            refine le_trans ?_ (ih (sel ++ [x]) rest)
            simp
        · exact le_refl _
    · exact le_refl _

theorem maxminLoop_length_le (n : Nat) (t : ℚ) :
    ∀ (fuel : Nat) (sel rem : List (String × Fp)), sel.length ≤ n →
      (maxminLoop n t fuel sel rem).length ≤ n := by
  intro fuel
  induction fuel with
  | zero => intro sel rem h; exact h
  | succ fuel ih =>
    intro sel rem h
    simp only [maxminLoop]
    split
    · rename_i hcond
      split
      · exact h
      · split
        · split
          · exact h
          · rename_i x rest heq
            refine ih (sel ++ [x]) rest ?_
            have := hcond.1
            simp only [List.length_append, List.length_cons, List.length_nil]
            omega
        · exact h
    · exact h

theorem maxminLoop_length_le_add (n : Nat) (t : ℚ) :
    ∀ (fuel : Nat) (sel rem : List (String × Fp)),
      (maxminLoop n t fuel sel rem).length ≤ sel.length + rem.length := by
  intro fuel
  induction fuel with
  | zero => intro sel rem; exact Nat.le_add_right _ _
  | succ fuel ih =>
    intro sel rem
    simp only [maxminLoop]
    split
    · split
      · exact Nat.le_add_right _ _
      · split
        · split
          · exact Nat.le_add_right _ _
          · rename_i x rest heq
            refine le_trans (ih (sel ++ [x]) rest) ?_
            have := popAt_length rem _ x rest heq
            simp only [List.length_append, List.length_cons, List.length_nil]
            omega
        · exact Nat.le_add_right _ _
    · exact Nat.le_add_right _ _

theorem maxminLoop_mono (n : Nat) {t1 t2 : ℚ} (h : t1 ≤ t2) :
    ∀ (fuel : Nat) (sel rem : List (String × Fp)),
      (maxminLoop n t1 fuel sel rem).length ≤ (maxminLoop n t2 fuel sel rem).length := by
  intro fuel
  induction fuel with
  | zero => intro sel rem; exact le_refl _
  | succ fuel ih =>
    intro sel rem
    simp only [maxminLoop]
    by_cases hc : sel.length < n ∧ rem ≠ []
    · rw [if_pos hc, if_pos hc]
      by_cases h2 : t2 ≤ (bestRemaining sel rem 0 (-1, -1)).1
      · rw [if_pos (le_trans h h2), if_pos h2]
      · by_cases h1 : t1 ≤ (bestRemaining sel rem 0 (-1, -1)).1
        · rw [if_pos h1, if_neg h2]
          by_cases hbi : (0 : Int) ≤ (bestRemaining sel rem 0 (-1, -1)).2
          · rw [if_pos hbi]
            cases heq : popAt rem (bestRemaining sel rem 0 (-1, -1)).2.toNat with
            | none => exact le_refl _
            | some p =>
              obtain ⟨x, rest⟩ := p
              refine le_trans ?_ (le_maxminLoop_length n t2 fuel (sel ++ [x]) rest)
              simp
          · rw [if_neg hbi]
        · rw [if_neg h1, if_neg h2]
          by_cases hbi : (0 : Int) ≤ (bestRemaining sel rem 0 (-1, -1)).2
          · rw [if_pos hbi, if_pos hbi]
            cases heq : popAt rem (bestRemaining sel rem 0 (-1, -1)).2.toNat with
            | none => exact le_refl _
            | some p =>
              obtain ⟨x, rest⟩ := p
              exact ih (sel ++ [x]) rest
          · rw [if_neg hbi, if_neg hbi]
    · rw [if_neg hc, if_neg hc]

-- Facts about the Tanimoto metric needed for C9.

theorem interCount_le_unionCount (a b : Fp) : interCount a b ≤ unionCount a b := by
  refine List.countP_mono_left ?_
  intro p _ hp
  cases h1 : p.1 <;> cases h2 : p.2 <;> simp_all

theorem tanimoto_nonneg (a b : Fp) : 0 ≤ tanimoto a b := by
  rw [tanimoto_eq_div]
  exact div_nonneg (Nat.cast_nonneg _) (Nat.cast_nonneg _)

theorem tanimoto_le_one (a b : Fp) : tanimoto a b ≤ 1 := by
  rcases Nat.eq_zero_or_pos (unionCount a b) with h | h
  · simp [tanimoto, h]
  · rw [tanimoto_eq_div]
    rw [div_le_one (by exact_mod_cast h)]
    exact_mod_cast interCount_le_unionCount a b

theorem unionCount_eq_zero_of_all_false {a b : Fp}
    (ha : ∀ x ∈ a, x = false) (hb : ∀ x ∈ b, x = false) : unionCount a b = 0 := by
  rw [unionCount, List.countP_eq_zero]
  intro p hp
  obtain ⟨x, y⟩ := p
  rcases List.of_mem_zip hp with ⟨hx, hy⟩
  simp [ha x hx, hb y hy]

/-- A parse environment with a single valid molecule whose fingerprint has no
set bits. -/
def parseZ (s : String) : Option Fp :=
  if s = "z" then some [false, false] else none

-- Claim theorems.

/-- C3 (counterexample): with an empty candidate list, `rank_by_similarity`
returns `[]` even though the query does not parse — the empty-list early
return precedes query fingerprinting, so no `MoleculeError` is raised. -/
theorem rank_empty_invalid_query_counterexample :
    parseNone "q" = none ∧ rank_by_similarity parseNone "q" [] 5 = Except.ok [] :=
  ⟨rfl, rfl⟩

/-- C3 (amended): for every NON-empty candidate list, `rank_by_similarity`
propagates `MoleculeError` when the query SMILES fails to parse, with no
partial result; for the empty candidate list it returns `[]` without
validating the query. -/
theorem rank_by_similarity_invalid_query (parse : String → Option Fp)
    (q : String) (cs : List String) (k : Nat) (hne : cs ≠ []) (hq : parse q = none) :
    rank_by_similarity parse q cs k = .error (.invalid q) ∧
    rank_by_similarity parse q [] k = .ok [] := by
  constructor
  · simp only [rank_by_similarity]
    rw [if_neg hne, hq]
  · rfl

/-- C3 (witness): instance of the amended claim at a concrete invalid query. -/
theorem rank_by_similarity_invalid_query_witness :
    rank_by_similarity parseNone "q" ["x"] 5 = .error (.invalid "q") ∧
    rank_by_similarity parseNone "q" [] 5 = .ok [] :=
  rank_by_similarity_invalid_query parseNone "q" ["x"] 5 (by decide) rfl

/-- C4 (counterexample): with `n = 0` and a two-element all-valid pool, the
general path seeds one element before the loop ever checks `n`, so the
result has length 1 > 0: the bound `len(result) <= n` fails at `n = 0`. -/
theorem find_diverse_subset_n_zero_counterexample :
    find_diverse_subset parseABC ["a", "b"] 0 (mkRat 2 5) = Except.ok ["a"] ∧
    ¬ ((["a"] : List String).length ≤ 0 ∧
        (["a"] : List String).length ≤ (["a", "b"] : List String).length) := by
  decide

/-- C4 (amended): for every pool, threshold and `n ≥ 1`, the result of
`find_diverse_subset` has length at most `n` and at most the pool length
(the original claim quantified over every `n`; it fails only at `n = 0`,
where the unconditional seeding returns one element). -/
theorem find_diverse_subset_length_bounds (parse : String → Option Fp)
    (pool : List String) (n : Nat) (t : ℚ) (hn : 1 ≤ n) (R : List String)
    (hR : find_diverse_subset parse pool n t = .ok R) :
    R.length ≤ n ∧ R.length ≤ pool.length := by
  simp only [find_diverse_subset] at hR
  by_cases h0 : pool = []
  · rw [if_pos h0] at hR
    cases hR
    simp [h0]
  · rw [if_neg h0] at hR
    by_cases h1 : pool.length ≤ n
    · rw [if_pos h1] at hR
      cases hv : validateAll parse pool with
      | error e => rw [hv] at hR; cases hR
      | ok u => rw [hv] at hR; cases hR; exact ⟨h1, le_refl _⟩
    · rw [if_neg h1] at hR
      rcases hst : (pool.filterMap fun s => (parse s).map fun fp => (s, fp))
        with _ | ⟨seed, rest⟩
      · rw [hst] at hR
        cases hR
        exact ⟨Nat.zero_le _, Nat.zero_le _⟩
      · rw [hst] at hR
        have hR2 : (maxminLoop n t rest.length [seed] rest).map Prod.fst = R := by
          injection hR
        have hlen : R.length = (maxminLoop n t rest.length [seed] rest).length := by
          rw [← hR2, List.length_map]
        constructor
        · rw [hlen]
          exact maxminLoop_length_le n t rest.length [seed] rest (by simpa using hn)
        · rw [hlen]
          refine le_trans (maxminLoop_length_le_add n t rest.length [seed] rest) ?_
          have h3 : (pool.filterMap fun s => (parse s).map fun fp => (s, fp)).length ≤
              pool.length := List.length_filterMap_le _ _
          rw [hst] at h3
          simp only [List.length_cons, List.length_append, List.length_nil] at h3 ⊢
          omega

/-- C4 (witness): the amended bounds at a concrete three-element pool. -/
theorem find_diverse_subset_length_bounds_witness :
    (["a", "b"] : List String).length ≤ 2 ∧
    (["a", "b"] : List String).length ≤ (["a", "b", "c"] : List String).length :=
  find_diverse_subset_length_bounds parseABC ["a", "b", "c"] 2 (mkRat 9 10)
    (by decide) ["a", "b"] (by decide)

/-- C5: on the fast path (input length ≤ n) every element is validated: any
unparseable element makes the whole call raise `MoleculeError`, and when all
elements parse the input is returned unchanged, same elements in the same
order. -/
theorem find_diverse_subset_fast_path (parse : String → Option Fp)
    (pool : List String) (n : Nat) (t : ℚ) (h : pool.length ≤ n) :
    ((∃ s ∈ pool, parse s = none) →
      ∃ e, find_diverse_subset parse pool n t = .error e) ∧
    ((∀ s ∈ pool, (parse s).isSome) →
      find_diverse_subset parse pool n t = .ok pool) := by
  constructor
  · intro hex
    by_cases h0 : pool = []
    · subst h0; simp at hex
    · rcases validateAll_error parse pool hex with ⟨e, he⟩
      refine ⟨e, ?_⟩
      simp only [find_diverse_subset]
      rw [if_neg h0, if_pos h, he]
  · intro hall
    by_cases h0 : pool = []
    · subst h0; rfl
    · simp only [find_diverse_subset]
      rw [if_neg h0, if_pos h, validateAll_ok parse pool hall]

/-- C5 (witness): fast path at a concrete all-valid pool of length 2 ≤ 5. -/
theorem find_diverse_subset_fast_path_witness :
    ((∃ s ∈ (["a", "b"] : List String), parseABC s = none) →
      ∃ e, find_diverse_subset parseABC ["a", "b"] 5 (mkRat 2 5) = .error e) ∧
    ((∀ s ∈ (["a", "b"] : List String), (parseABC s).isSome) →
      find_diverse_subset parseABC ["a", "b"] 5 (mkRat 2 5) = .ok ["a", "b"]) :=
  find_diverse_subset_fast_path parseABC ["a", "b"] 5 (mkRat 2 5) (by decide)

/-- C6: `rank_by_similarity`'s result is sorted by descending score, and for
every score value the equal-score entries appear as an initial segment of
the scored-candidate list in input order (Python's sort is stable and
`reverse=True`), so identical inputs yield identical output order. -/
theorem rank_by_similarity_sorted_stable (parse : String → Option Fp)
    (q : String) (cs : List String) (k : Nat) (qfp : Fp)
    (R : List (String × ℚ)) (hq : parse q = some qfp)
    (hR : rank_by_similarity parse q cs k = .ok R) :
    R.Pairwise (fun x y => y.2 ≤ x.2) ∧
    ∀ v : ℚ, ∃ suf, R.filter (fun p => p.2 = v) ++ suf =
      (scoreCands parse qfp cs).filter (fun p => p.2 = v) := by
  by_cases h0 : cs = []
  · subst h0
    have hR2 : ([] : List (String × ℚ)) = R := by injection hR
    refine ⟨by rw [← hR2]; exact List.Pairwise.nil, fun v => ⟨[], by simp [← hR2, scoreCands]⟩⟩
  · have hR2 : (sortDesc (scoreCands parse qfp cs)).take k = R := by
      simp only [rank_by_similarity] at hR
      rw [if_neg h0, hq] at hR
      injection hR
    constructor
    · rw [← hR2]
      exact List.Pairwise.sublist (List.take_sublist k _) (sortDesc_pairwise _)
    · intro v
      refine ⟨((sortDesc (scoreCands parse qfp cs)).drop k).filter (fun p => p.2 = v), ?_⟩
      rw [← hR2, ← List.filter_append, List.take_append_drop, sortDesc_filter]

/-- C6 (witness): sortedness and stability at a concrete query and pool. -/
theorem rank_by_similarity_sorted_stable_witness :
    ([("b", mkRat 2 3), ("c", 0)] : List (String × ℚ)).Pairwise (fun x y => y.2 ≤ x.2) ∧
    ∀ v : ℚ, ∃ suf,
      ([("b", mkRat 2 3), ("c", 0)] : List (String × ℚ)).filter (fun p => p.2 = v) ++ suf =
        (scoreCands parseABC [true, true, false, false] ["b", "c", "x"]).filter
          (fun p => p.2 = v) :=
  rank_by_similarity_sorted_stable parseABC "a" ["b", "c", "x"] 2
    [true, true, false, false] [("b", mkRat 2 3), ("c", 0)] (by decide) (by decide)

/-- C7: for a parseable query, `rank_by_similarity` succeeds and the result
length is exactly `min top_k (number of parseable candidates)`; when `top_k`
exceeds the survivors, all of them are returned. -/
theorem rank_by_similarity_result_length (parse : String → Option Fp)
    (q : String) (cs : List String) (k : Nat) (qfp : Fp)
    (hq : parse q = some qfp) :
    ∃ R, rank_by_similarity parse q cs k = .ok R ∧
      R.length = min k (cs.countP fun c => (parse c).isSome) := by
  by_cases h0 : cs = []
  · subst h0
    exact ⟨[], rfl, by simp⟩
  · refine ⟨(sortDesc (scoreCands parse qfp cs)).take k, ?_, ?_⟩
    · simp only [rank_by_similarity]
      rw [if_neg h0, hq]
    · rw [List.length_take, sortDesc_length, scoreCands_length]

/-- C7 (witness): length `min 2 2 = 2` at a pool with two parseable and one
unparseable candidate. -/
theorem rank_by_similarity_result_length_witness :
    ∃ R, rank_by_similarity parseABC "a" ["b", "c", "x"] 2 = .ok R ∧
      R.length = min 2 ((["b", "c", "x"] : List String).countP
        fun c => (parseABC c).isSome) :=
  rank_by_similarity_result_length parseABC "a" ["b", "c", "x"] 2
    [true, true, false, false] (by decide)

/-- C8: holding parse environment, pool and `n` fixed, a larger similarity
threshold never yields a shorter diverse subset. -/
theorem find_diverse_subset_threshold_mono (parse : String → Option Fp)
    (pool : List String) (n : Nat) (t1 t2 : ℚ) (h : t1 ≤ t2)
    (R1 R2 : List String)
    (h1 : find_diverse_subset parse pool n t1 = .ok R1)
    (h2 : find_diverse_subset parse pool n t2 = .ok R2) :
    R1.length ≤ R2.length := by
  simp only [find_diverse_subset] at h1 h2
  by_cases h0 : pool = []
  · rw [if_pos h0] at h1 h2
    cases h1; cases h2
    exact le_refl _
  · rw [if_neg h0] at h1 h2
    by_cases hl : pool.length ≤ n
    · rw [if_pos hl] at h1 h2
      cases hv : validateAll parse pool with
      | error e => rw [hv] at h1; cases h1
      | ok u =>
        rw [hv] at h1 h2
        cases h1; cases h2
        exact le_refl _
    · rw [if_neg hl] at h1 h2
      rcases hst : (pool.filterMap fun s => (parse s).map fun fp => (s, fp))
        with _ | ⟨seed, rest⟩
      · rw [hst] at h1 h2
        cases h1; cases h2
        exact le_refl _
      · rw [hst] at h1 h2
        have e1 : (maxminLoop n t1 rest.length [seed] rest).map Prod.fst = R1 := by
          injection h1
        have e2 : (maxminLoop n t2 rest.length [seed] rest).map Prod.fst = R2 := by
          injection h2
        rw [← e1, ← e2, List.length_map, List.length_map]
        exact maxminLoop_mono n h rest.length [seed] rest

/-- C8 (witness): at threshold 1/2 the pool yields `["a"]`, at 9/10 it
yields `["a", "b"]`; 1 ≤ 2. -/
theorem find_diverse_subset_threshold_mono_witness :
    (["a"] : List String).length ≤ (["a", "b"] : List String).length :=
  find_diverse_subset_threshold_mono parseABC ["a", "b", "c"] 2
    (mkRat 1 2) (mkRat 9 10) (by decide) ["a"] ["a", "b"] (by decide) (by decide)

/-- C9: whenever both inputs parse, `tanimoto_similarity` returns a value
(no division-by-zero failure): it is `tanimoto` of the two fingerprints,
always within [0, 1], and for two fingerprints with no set bits the value is
the fixed convention 0 (RDKit returns 0.0 on an empty union). -/
theorem tanimoto_similarity_welldefined (parse : String → Option Fp)
    (s1 s2 : String) (f1 f2 : Fp)
    (h1 : parse s1 = some f1) (h2 : parse s2 = some f2) :
    tanimoto_similarity parse s1 s2 = .ok (tanimoto f1 f2) ∧
    0 ≤ tanimoto f1 f2 ∧ tanimoto f1 f2 ≤ 1 ∧
    ((∀ x ∈ f1, x = false) → (∀ x ∈ f2, x = false) → tanimoto f1 f2 = 0) := by
  refine ⟨?_, tanimoto_nonneg f1 f2, tanimoto_le_one f1 f2, ?_⟩
  · simp only [tanimoto_similarity]
    rw [h1, h2]
  · intro ha hb
    simp [tanimoto, unionCount_eq_zero_of_all_false ha hb]

/-- C9 (witness): the all-zero fingerprint compared with itself gives the
fixed value 0 and no failure. -/
theorem tanimoto_similarity_welldefined_witness :
    tanimoto_similarity parseZ "z" "z" = .ok (tanimoto [false, false] [false, false]) ∧
    0 ≤ tanimoto [false, false] [false, false] ∧
    tanimoto [false, false] [false, false] ≤ 1 ∧
    ((∀ x ∈ ([false, false] : Fp), x = false) →
      (∀ x ∈ ([false, false] : Fp), x = false) →
      tanimoto [false, false] [false, false] = 0) :=
  tanimoto_similarity_welldefined parseZ "z" "z" [false, false] [false, false]
    (by decide) (by decide)

/-- C1 (code behavior): the selection loop tracks the remaining candidate
with the LARGEST minimum-similarity-to-selected (replacing on strictly
greater values), not the smallest: with seed "a", candidate "c" has strictly
smaller minimum similarity than "b" (0 < 2/3, both below the 9/10
threshold), yet the code adds "b". -/
theorem find_diverse_subset_picks_closest_not_farthest :
    find_diverse_subset parseABC ["a", "b", "c"] 2 (mkRat 9 10) = Except.ok ["a", "b"] ∧
    minSimToSelected [false, false, false, true] [("a", [true, true, false, false])] <
      minSimToSelected [true, true, true, false] [("a", [true, true, false, false])] := by
  decide

/-- C2 (code behavior): the threshold is compared against the LARGEST
minimum-similarity among remaining candidates, so the loop stops although
the smallest such value (candidate "c", value 0) is below the 1/2 threshold
and `|selected| = 1 < n = 2` with candidates remaining. -/
theorem find_diverse_subset_stops_despite_diverse_candidate :
    find_diverse_subset parseABC ["a", "b", "c"] 2 (mkRat 1 2) = Except.ok ["a"] ∧
    minSimToSelected [false, false, false, true] [("a", [true, true, false, false])] <
      mkRat 1 2 := by
  decide
